import Mathlib

/-!
Verification of the walkathon-dashboard scoring and aggregation engine
(`src/app.py`) against its natural-language specification.

The embedding models the pandas pipeline over explicit lists:
  * a `StepRecord` is one row of the long-format dataframe `df`
    (date, participant, team, steps); dates are day ordinals (`Nat`);
  * `calculate_score` is the scoring function of app.py lines 23-26;
  * `df_filt` is the boolean-mask filter of lines 74-78
    (`Team.isin(sel_teams) & Date.between(start, end)`);
  * pandas `groupby(key)` sorts group keys ascending and emits one group
    per distinct key, modelled by `sorted_unique`;
  * pandas `Series.sort_values(ascending=False)` performs an ascending
    argsort (stable on the small inputs involved, where numpy introsort
    runs its insertion-sort base case) and reverses the indexer, modelled
    by a stable insertion sort followed by `List.reverse`;
  * pandas floating-point results that can be NaN (mean of an empty
    series) are modelled by `PyFloat`, with `PyFloat.nan` for NaN.
-/

/-- One row of the long-format dataframe: Date, Participant, Team, Steps. -/
structure StepRecord where
  date : Nat
  participant : String
  team : String
  steps : Int
deriving DecidableEq, Repr

/-- app.py lines 23-26:
`if steps < 8000: return steps` /
`if steps >= 15000: return 23000` /
`return 16000 + (steps - 8000)`. -/
def calculate_score (steps : Int) : Int :=
  if steps < 8000 then steps
  else if 15000 ≤ steps then 23000
  else 16000 + (steps - 8000)

/-- `df["Score"]` for one row (line 67: `df["Steps"].apply(calculate_score)`). -/
def scoreOf (r : StepRecord) : Int := calculate_score r.steps

/-- The sidebar filter state: selected teams and the inclusive date range. -/
structure FilterSpec where
  teams : List String
  start_date : Nat
  end_date : Nat
deriving DecidableEq, Repr

/-- app.py lines 74-77: `df["Team"].isin(sel_teams) &
df["Date"].dt.date.between(sel_dates[0], sel_dates[1])`
(`between` is inclusive on both ends). -/
def recordPasses (f : FilterSpec) (r : StepRecord) : Bool :=
  f.teams.contains r.team && (decide (f.start_date ≤ r.date) && decide (r.date ≤ f.end_date))

/-- app.py line 78: `df_filt = df[mask]`. -/
def df_filt (f : FilterSpec) (rs : List StepRecord) : List StepRecord :=
  rs.filter (recordPasses f)

/-- pandas float values that may be NaN. -/
inductive PyFloat where
  | nan : PyFloat
  | val : ℚ → PyFloat
deriving DecidableEq, Repr

/-- pandas `Series.mean()`: NaN on an empty series, arithmetic mean otherwise. -/
def seriesMean (l : List ℚ) : PyFloat :=
  if l.isEmpty then PyFloat.nan else PyFloat.val (l.sum / l.length)

/-- pandas `Series.max()`: NaN on an empty series. -/
def seriesMax (l : List ℚ) : PyFloat :=
  match l with
  | [] => PyFloat.nan
  | x :: xs => PyFloat.val (xs.foldl max x)

/-- pandas `Series.min()`: NaN on an empty series. -/
def seriesMin (l : List ℚ) : PyFloat :=
  match l with
  | [] => PyFloat.nan
  | x :: xs => PyFloat.val (xs.foldl min x)

/-- Scalar multiplication on a possibly-NaN value (NaN propagates). -/
def pyScale (x : PyFloat) (c : ℚ) : PyFloat :=
  match x with
  | PyFloat.nan => PyFloat.nan
  | PyFloat.val q => PyFloat.val (q * c)

/-- Lexicographic strict comparison of character lists: the order Python
uses on strings, hence the order pandas sorts string group keys by. -/
def charListLt : List Char → List Char → Bool
  | [], [] => false
  | [], _ :: _ => true
  | _ :: _, [] => false
  | c :: cs, d :: ds => if c < d then true else if d < c then false else charListLt cs ds

/-- Strict lexicographic order on strings (via their character lists). -/
def strLt (a b : String) : Bool := charListLt a.data b.data

/-- Lexicographic `≤` on strings: not strictly greater. -/
def strLe (a b : String) : Bool := ! charListLt b.data a.data

/-- The distinct values of a list, in ascending order: the group keys
produced by a pandas `groupby` (which sorts keys ascending). -/
def sorted_unique (l : List Nat) : List Nat :=
  List.insertionSort (· ≤ ·) l.dedup

/-- The distinct team labels, lexicographically ascending: keys of
`groupby("Team")`. -/
def team_keys (rs : List StepRecord) : List String :=
  List.insertionSort (fun a b : String => strLe a b = true)
    (rs.map (fun r => r.team)).dedup

/-- The distinct dates, ascending: keys of `groupby("Date")`. -/
def dates_of (rs : List StepRecord) : List Nat :=
  sorted_unique (rs.map (fun r => r.date))

/-- app.py line 89: `total_steps = int(df_filt["Steps"].sum())`. -/
def total_steps (rs : List StepRecord) : Int :=
  (rs.map (fun r => r.steps)).sum

/-- One group's score sum: `groupby("Team")["Score"].sum()` at key `t`. -/
def teamScoreSum (rs : List StepRecord) (t : String) : Int :=
  ((rs.filter (fun r => r.team = t)).map scoreOf).sum

/-- One date group's score sum: `groupby("Date")["Score"].sum()` at key `d`. -/
def dailyScoreSum (rs : List StepRecord) (d : Nat) : Int :=
  ((rs.filter (fun r => r.date = d)).map scoreOf).sum

/-- app.py line 90: `avg_daily_score = df_filt.groupby("Date")["Score"].sum().mean()`.
On an empty frame the groupby produces an empty series, whose mean is NaN. -/
def avg_daily_score (rs : List StepRecord) : PyFloat :=
  seriesMean ((dates_of rs).map (fun d => (dailyScoreSum rs d : ℚ)))

/-- app.py line 91: `pct_8k = (df_filt["Steps"] >= 8000).mean() * 100`.
The mean of the boolean indicator series is NaN when the frame is empty. -/
def pct_8k (rs : List StepRecord) : PyFloat :=
  pyScale (seriesMean (rs.map (fun r => if 8000 ≤ r.steps then (1 : ℚ) else 0))) 100

/-- app.py line 119:
`team_totals = df_filt.groupby("Team")["Score"].sum().sort_values(ascending=False)`.
The groupby yields one `(team, sum)` pair per distinct team, keys ascending;
`sort_values(ascending=False)` then stably argsorts the totals ascending and
reverses the indexer. -/
def team_totals (rs : List StepRecord) : List (String × Int) :=
  (List.insertionSort (fun a b : String × Int => a.2 ≤ b.2)
    ((team_keys rs).map (fun t => (t, teamScoreSum rs t)))).reverse

/-- app.py line 157: `scores = df_filt[df_filt["Team"] == team]["Score"]`. -/
def team_scores (rs : List StepRecord) (t : String) : List Int :=
  (rs.filter (fun r => r.team = t)).map scoreOf

/-- app.py lines 158-163: the radar entries for one team:
`[scores.sum(), scores.mean(), scores.max(), scores.min()]`. -/
def radar_entry (rs : List StepRecord) (t : String) : Int × PyFloat × PyFloat × PyFloat :=
  ((team_scores rs t).sum,
   seriesMean ((team_scores rs t).map (fun z : Int => (z : ℚ))),
   seriesMax ((team_scores rs t).map (fun z : Int => (z : ℚ))),
   seriesMin ((team_scores rs t).map (fun z : Int => (z : ℚ))))

/-- The last (maximal) date of the frame, i.e. the final row index of the
date-indexed pivot of app.py lines 143-147. -/
def last_date (rs : List StepRecord) : Nat :=
  (rs.map (fun r => r.date)).foldr max 0

/-- One cell of the pivot of app.py lines 143-147:
`groupby(["Date","Team"])["Score"].sum()`, pivoted and `fillna(0)`-filled,
so the value is 0 when the (date, team) pair has no record. -/
def daily_team_score (rs : List StepRecord) (d : Nat) (t : String) : Int :=
  ((rs.filter (fun r => r.date = d ∧ r.team = t)).map scoreOf).sum

/-- The `.cumsum()` value of team `t` at row `d` of the pivot: daily cells
summed over all dates up to and including `d`, dates ascending. -/
def cum_at (rs : List StepRecord) (d : Nat) (t : String) : Int :=
  (((dates_of rs).filter (fun d2 => d2 ≤ d)).map
    (fun d2 => daily_team_score rs d2 t)).sum

/-- A wide-format upload: one `Date` column plus one column per participant;
`rows` pairs each date with its cells, aligned with `participants`.
A `none` cell is a missing value. -/
structure WideTable where
  participants : List String
  rows : List (Nat × List (Option Int))

/-- app.py lines 50-55: `df.melt(id_vars=["Date"], value_vars=participants,
var_name="Participant", value_name="Steps").dropna(subset=["Steps"])`.
`melt` emits one row per (participant column, date row) cell, participant
columns outermost; `dropna` then removes the rows whose cell was missing. -/
def melt_records (w : WideTable) : List (Nat × String × Int) :=
  w.participants.enum.flatMap (fun pj =>
    w.rows.filterMap (fun row =>
      (row.2.getD pj.1 none).map (fun v => (row.1, pj.2, v))))

/-- Number of missing cells in one wide row. -/
def none_count (row : List (Option Int)) : Nat :=
  (row.filter (fun c => c.isNone)).length

/-- Total number of missing cells in the wide table. -/
def missing_cells (w : WideTable) : Nat :=
  (w.rows.map (fun row => none_count row.2)).sum

/-- The spec's scenario input:
`[(2024-01-01, "A", "T1", 7999), (2024-01-01, "B", "T1", 8000),
  (2024-01-02, "A", "T1", 15000)]`, with dates as day ordinals 1 and 2. -/
def demoRecords : List StepRecord :=
  [⟨1, "A", "T1", 7999⟩, ⟨1, "B", "T1", 8000⟩, ⟨2, "A", "T1", 15000⟩]

/-- Two teams "A" and "B" with equal score totals, to probe the tie-break
order of `team_totals`. -/
def tieRecords : List StepRecord :=
  [⟨1, "p", "A", 100⟩, ⟨1, "q", "B", 100⟩]

theorem charListLt_asymm :
    ∀ a b, charListLt a b = true → charListLt b a = false := by
  intro a
  induction a with
  | nil =>
    intro b h
    cases b with
    | nil => simp [charListLt] at h
    | cons d ds => simp [charListLt]
  | cons c cs ih =>
    intro b h
    cases b with
    | nil => simp [charListLt] at h
    | cons d ds =>
      simp only [charListLt] at h ⊢
      by_cases h1 : c < d
      · simp [h1, lt_asymm h1]
      · by_cases h2 : d < c
        · simp [h1, h2] at h
        · simp only [h1, h2, if_false] at h ⊢
          exact ih ds h

theorem charListLt_trichotomy :
    ∀ a b, charListLt a b = true ∨ a = b ∨ charListLt b a = true := by
  intro a
  induction a with
  | nil =>
    intro b
    cases b <;> simp [charListLt]
  | cons c cs ih =>
    intro b
    cases b with
    | nil => simp [charListLt]
    | cons d ds =>
      rcases lt_trichotomy c d with h | h | h
      · left
        simp [charListLt, h]
      · subst h
        rcases ih ds with h2 | h2 | h2
        · left
          simp [charListLt, lt_irrefl, h2]
        · right; left
          rw [h2]
        · right; right
          simp [charListLt, lt_irrefl, h2]
      · right; right
        simp [charListLt, h]

theorem charListLt_trans :
    ∀ a b c, charListLt a b = true → charListLt b c = true →
      charListLt a c = true := by
  intro a
  induction a with
  | nil =>
    intro b c hab hbc
    cases c with
    | nil =>
      cases b with
      | nil => simp [charListLt] at hab
      | cons y ys => simp [charListLt] at hbc
    | cons z zs => simp [charListLt]
  | cons x xs ih =>
    intro b c hab hbc
    cases b with
    | nil => simp [charListLt] at hab
    | cons y ys =>
      cases c with
      | nil => simp [charListLt] at hbc
      | cons z zs =>
        simp only [charListLt] at hab hbc ⊢
        by_cases hxy : x < y
        · by_cases hyz : y < z
          · simp [lt_trans hxy hyz]
          · by_cases hzy : z < y
            · simp [hyz, hzy] at hbc
            · have hy : y = z := le_antisymm (not_lt.mp hzy) (not_lt.mp hyz)
              subst hy
              simp [hxy]
        · by_cases hyx : y < x
          · simp [hxy, hyx] at hab
          · have hx : x = y := le_antisymm (not_lt.mp hyx) (not_lt.mp hxy)
            subst hx
            by_cases hyz : x < z
            · simp [hyz]
            · by_cases hzy : z < x
              · simp [hyz, hzy] at hbc
              · simp only [hxy, hyx, hyz, hzy, if_false] at hab hbc ⊢
                exact ih ys zs hab hbc

theorem strLe_total (a b : String) : strLe a b = true ∨ strLe b a = true := by
  unfold strLe
  by_cases h : charListLt b.data a.data = true
  · right
    simp [charListLt_asymm _ _ h]
  · left
    simp only [Bool.not_eq_true] at h
    simp [h]

theorem strLe_trans (a b c : String) :
    strLe a b = true → strLe b c = true → strLe a c = true := by
  unfold strLe
  simp only [Bool.not_eq_true']
  intro hab hbc
  cases hca : charListLt c.data a.data with
  | false => rfl
  | true =>
    rcases charListLt_trichotomy c.data b.data with h1 | h1 | h1
    · rw [h1] at hbc
      exact Bool.noConfusion hbc
    · rw [h1] at hca
      rw [hca] at hab
      exact Bool.noConfusion hab
    · rw [charListLt_trans _ _ _ h1 hca] at hab
      exact Bool.noConfusion hab

theorem strLt_of_strLe_of_ne (a b : String) (h1 : strLe a b = true) (h2 : a ≠ b) :
    strLt a b = true := by
  unfold strLe at h1
  unfold strLt
  rw [Bool.not_eq_true'] at h1
  rcases charListLt_trichotomy a.data b.data with h | h | h
  · exact h
  · exact absurd (String.ext h) h2
  · rw [h] at h1
    exact Bool.noConfusion h1

theorem map_fst_team_totals (rs : List StepRecord) :
    ((team_totals rs).map Prod.fst).Perm (team_keys rs) := by
  unfold team_totals
  rw [List.map_reverse]
  refine (List.reverse_perm _).trans ?_
  refine ((List.perm_insertionSort _ _).map Prod.fst).trans ?_
  have hid : ((team_keys rs).map (fun t2 => (t2, teamScoreSum rs t2))).map Prod.fst
      = team_keys rs := by
    rw [List.map_map]
    exact List.map_id _
  rw [hid]

theorem mem_team_keys (rs : List StepRecord) (t : String) :
    t ∈ team_keys rs ↔ ∃ r ∈ rs, r.team = t := by
  unfold team_keys
  rw [List.mem_insertionSort, List.mem_dedup, List.mem_map]

theorem seriesMean_ne_nan {l : List ℚ} (h : l ≠ []) : seriesMean l ≠ PyFloat.nan := by
  unfold seriesMean
  cases l with
  | nil => exact absurd rfl h
  | cons x xs => simp

theorem seriesMax_ne_nan {l : List ℚ} (h : l ≠ []) : seriesMax l ≠ PyFloat.nan := by
  unfold seriesMax
  cases l with
  | nil => exact absurd rfl h
  | cons x xs => simp

theorem seriesMin_ne_nan {l : List ℚ} (h : l ≠ []) : seriesMin l ≠ PyFloat.nan := by
  unfold seriesMin
  cases l with
  | nil => exact absurd rfl h
  | cons x xs => simp

/-- The radar loop runs only over `team_totals.index`, i.e. teams with at
least one passing record, so every per-team score series is non-empty and
none of mean/max/min hits the empty-series NaN case. -/
theorem radar_groups_nonempty : ∀ (rs : List StepRecord) (t : String),
    t ∈ (team_totals rs).map Prod.fst →
    rs.filter (fun r => r.team = t) ≠ [] ∧
    (radar_entry rs t).2.1 ≠ PyFloat.nan ∧
    (radar_entry rs t).2.2.1 ≠ PyFloat.nan ∧
    (radar_entry rs t).2.2.2 ≠ PyFloat.nan := by
  intro rs t ht
  obtain ⟨r, hr, hrt⟩ :=
    (mem_team_keys rs t).mp ((map_fst_team_totals rs).mem_iff.mp ht)
  have hmem : r ∈ rs.filter (fun r2 => r2.team = t) :=
    List.mem_filter.mpr ⟨hr, by simp [hrt]⟩
  have hne : rs.filter (fun r2 => r2.team = t) ≠ [] := by
    intro h
    rw [h] at hmem
    exact (List.not_mem_nil r) hmem
  have hscores : (team_scores rs t).map (fun z : Int => (z : ℚ)) ≠ [] := by
    unfold team_scores
    simp only [ne_eq, List.map_eq_nil_iff]
    exact hne
  exact ⟨hne, seriesMean_ne_nan hscores, seriesMax_ne_nan hscores,
    seriesMin_ne_nan hscores⟩

/-- Instantiation of `radar_groups_nonempty` on the scenario data. -/
theorem radar_groups_nonempty_witness :
    demoRecords.filter (fun r => r.team = "T1") ≠ [] ∧
    (radar_entry demoRecords "T1").2.1 ≠ PyFloat.nan ∧
    (radar_entry demoRecords "T1").2.2.1 ≠ PyFloat.nan ∧
    (radar_entry demoRecords "T1").2.2.2 ≠ PyFloat.nan := by
  have ht : ("T1" : String) ∈ (team_totals demoRecords).map Prod.fst := by decide
  exact radar_groups_nonempty demoRecords "T1" ht

theorem sum_map_add_nat {β : Type} (l : List β) (f g : β → ℕ) :
    (l.map (fun b => f b + g b)).sum = (l.map f).sum + (l.map g).sum := by
  induction l with
  | nil => simp
  | cons b bs ih => simp [ih]; omega

theorem sum_map_const_nat {β : Type} (l : List β) (c : ℕ) :
    (l.map (fun _ => c)).sum = c * l.length := by
  induction l with
  | nil => simp
  | cons b bs ih =>
    simp [ih]
    ring

theorem sum_indicator_eq_length_filter {β : Type} (l : List β) (p : β → Bool) :
    (l.map (fun b => if p b then (1 : ℕ) else 0)).sum = (l.filter p).length := by
  induction l with
  | nil => simp
  | cons b bs ih =>
    by_cases hb : p b <;> simp [List.filter_cons, hb, ih]
    omega

theorem length_filter_cons {β : Type} (b : β) (l : List β) (p : β → Bool) :
    ((b :: l).filter p).length = (if p b then 1 else 0) + (l.filter p).length := by
  by_cases hb : p b <;> simp [List.filter_cons, hb]
  omega

/-- Double-counting: summing filtered lengths over `as` equals summing them
over `bs`. -/
theorem sum_length_filter_comm {α β : Type} (as : List α) (bs : List β)
    (p : α → β → Bool) :
    (as.map (fun a => (bs.filter (p a)).length)).sum =
      (bs.map (fun b => (as.filter (fun a => p a b)).length)).sum := by
  induction as with
  | nil => simp
  | cons a as ih =>
    have hsplit : (bs.map (fun b => ((a :: as).filter (fun x => p x b)).length)).sum =
        (bs.map (fun b => (if p a b then (1 : ℕ) else 0) +
          (as.filter (fun x => p x b)).length)).sum := by
      apply congrArg
      apply List.map_congr_left
      intro b _
      exact length_filter_cons a as (fun x => p x b)
    rw [hsplit, sum_map_add_nat, sum_indicator_eq_length_filter, ← ih]
    simp

theorem length_filterMap_eq {α β : Type} (g : α → Option β) :
    ∀ l : List α, (l.filterMap g).length = (l.filter (fun a => (g a).isSome)).length := by
  intro l
  induction l with
  | nil => simp
  | cons a l ih =>
    cases hg : g a <;>
      simp [List.filterMap_cons, List.filter_cons, hg, ih]

/-- For a row of length `n`, counting the indices whose cell is present
equals counting the present cells. -/
theorem range_getD_isSome_count :
    ∀ row : List (Option Int),
      ((List.range row.length).filter (fun j => (row.getD j none).isSome)).length =
        (row.filter (fun c => c.isSome)).length := by
  intro row
  induction row with
  | nil => simp
  | cons c cs ih =>
    have hmap : ((List.range cs.length).map Nat.succ).filter
        (fun j => ((c :: cs).getD j none).isSome) =
        ((List.range cs.length).filter
          (fun j => (cs.getD j none).isSome)).map Nat.succ := by
      rw [List.filter_map]
      rfl
    rw [List.length_cons, List.range_succ_eq_map, List.filter_cons, hmap,
      List.filter_cons]
    simp only [List.getD_eq_getElem?_getD] at ih
    cases c <;> simp [List.getD_cons_zero, ih]

/-- Cells present plus cells missing account for the whole row. -/
theorem present_add_none_eq_length (row : List (Option Int)) :
    (row.filter (fun c => c.isSome)).length + none_count row = row.length := by
  induction row with
  | nil => simp [none_count]
  | cons c cs ih =>
    cases c <;> simp [none_count, List.filter_cons] at ih ⊢ <;> omega

/-- Melting a wellformed wide table with `N` participant columns and `D`
rows emits `N * D - K` records, where `K` is the number of missing cells
(so exactly `N * D` when nothing is missing). -/
theorem melt_record_count : ∀ w : WideTable,
    (∀ row ∈ w.rows, row.2.length = w.participants.length) →
    (melt_records w).length + missing_cells w =
        w.participants.length * w.rows.length ∧
    (melt_records w).length =
        w.participants.length * w.rows.length - missing_cells w := by
  intro w hlen
  have h1 : (melt_records w).length =
      (w.participants.enum.map
        (fun pj => (w.rows.filter
          (fun row => (row.2.getD pj.1 none).isSome)).length)).sum := by
    rw [melt_records, List.length_flatMap]
    apply congrArg
    apply List.map_congr_left
    intro pj _
    show (w.rows.filterMap _).length = _
    rw [length_filterMap_eq]
    apply congrArg
    apply List.filter_congr
    intro row _
    cases row.2.getD pj.1 none <;> rfl
  have h1b : (melt_records w).length =
      ((List.range w.participants.length).map
        (fun j => (w.rows.filter
          (fun row => (row.2.getD j none).isSome)).length)).sum := by
    rw [h1, ← List.enum_map_fst w.participants, List.map_map]
    rfl
  have h2 : (melt_records w).length =
      (w.rows.map (fun row =>
        ((List.range w.participants.length).filter
          (fun j => (row.2.getD j none).isSome)).length)).sum := by
    rw [h1b,
      sum_length_filter_comm (List.range w.participants.length) w.rows
        (fun j row => (row.2.getD j none).isSome)]
  have h3 : (melt_records w).length =
      (w.rows.map (fun row => (row.2.filter (fun c => c.isSome)).length)).sum := by
    rw [h2]
    apply congrArg
    apply List.map_congr_left
    intro row hrow
    rw [← hlen row hrow]
    exact range_getD_isSome_count row.2
  have h4 : (melt_records w).length + missing_cells w =
      w.participants.length * w.rows.length := by
    rw [h3, missing_cells, ← sum_map_add_nat]
    have : (w.rows.map (fun row =>
        (row.2.filter (fun c => c.isSome)).length + none_count row.2)).sum =
        (w.rows.map (fun _ => w.participants.length)).sum := by
      apply congrArg
      apply List.map_congr_left
      intro row hrow
      rw [present_add_none_eq_length, hlen row hrow]
    rw [this, sum_map_const_nat]
  exact ⟨h4, by omega⟩

/-- Instantiation of `melt_record_count` at a concrete 2-participant,
2-date table with one missing cell: 3 = 2*2 - 1 records. -/
theorem melt_record_count_witness :
    (melt_records ⟨["A", "B"], [(1, [some 5, none]), (2, [some 3, some 4])]⟩).length +
        missing_cells ⟨["A", "B"], [(1, [some 5, none]), (2, [some 3, some 4])]⟩ = 2 * 2 ∧
    (melt_records ⟨["A", "B"], [(1, [some 5, none]), (2, [some 3, some 4])]⟩).length =
        2 * 2 - missing_cells ⟨["A", "B"], [(1, [some 5, none]), (2, [some 3, some 4])]⟩ :=
  melt_record_count ⟨["A", "B"], [(1, [some 5, none]), (2, [some 3, some 4])]⟩
    (by decide)

/-- The piecewise contract of the scoring function, with the four boundary
values the spec pins down exactly. -/
theorem score_piecewise_cases : ∀ steps : Int,
    (steps < 8000 → calculate_score steps = steps) ∧
    (15000 ≤ steps → calculate_score steps = 23000) ∧
    (8000 ≤ steps → steps < 15000 → calculate_score steps = 16000 + (steps - 8000)) ∧
    calculate_score 7999 = 7999 ∧ calculate_score 8000 = 16000 ∧
    calculate_score 14999 = 22999 ∧ calculate_score 15000 = 23000 := by
  intro steps
  refine ⟨?_, ?_, ?_, by decide, by decide, by decide, by decide⟩ <;>
    · intros
      simp only [calculate_score]
      split_ifs <;> omega

/-- Instantiation of `score_piecewise_cases` at concrete inputs from each tier. -/
theorem score_piecewise_cases_witness :
    calculate_score 5000 = 5000 ∧ calculate_score 20000 = 23000 ∧
    calculate_score 9000 = 17000 :=
  ⟨(score_piecewise_cases 5000).1 (by decide),
   (score_piecewise_cases 20000).2.1 (by decide),
   (score_piecewise_cases 9000).2.2.1 (by decide) (by decide)⟩

/-- `calculate_score` is monotonically non-decreasing on `[0, 15000)` and
constant 23000 from 15000 on. -/
theorem score_monotone_and_saturates :
    (∀ a b : Int, 0 ≤ a → a ≤ b → b < 15000 →
      calculate_score a ≤ calculate_score b) ∧
    (∀ s : Int, 15000 ≤ s → calculate_score s = 23000) := by
  constructor
  · intro a b _ _ _
    simp only [calculate_score]
    split_ifs <;> omega
  · intro s hs
    simp only [calculate_score]
    split_ifs <;> omega

/-- Instantiation of `score_monotone_and_saturates` at concrete inputs. -/
theorem score_monotone_and_saturates_witness :
    calculate_score 7000 ≤ calculate_score 9000 ∧ calculate_score 20000 = 23000 :=
  ⟨score_monotone_and_saturates.1 7000 9000 (by decide) (by decide) (by decide),
   score_monotone_and_saturates.2 20000 (by decide)⟩

/-- On the scenario input the team total for "T1" is
`7999 + 16000 + 23000 = 46999`, not the 47000 the spec states. -/
theorem demo_team_total_not_47000 :
    (demoRecords.map scoreOf = [7999, 16000, 23000]) ∧
    teamScoreSum demoRecords "T1" = 46999 ∧
    ¬ teamScoreSum demoRecords "T1" = 47000 := by
  refine ⟨by decide, by decide, by decide⟩

/-- The scenario aggregates as the code actually computes them: scores
`[7999, 16000, 23000]`, `team_totals` row `("T1", 46999)`, total steps
30999, and `pct_8k` exactly `2/3 * 100`. -/
theorem demo_scenario_aggregates :
    demoRecords.map scoreOf = [7999, 16000, 23000] ∧
    team_totals demoRecords = [("T1", 46999)] ∧
    total_steps demoRecords = 30999 ∧
    pct_8k demoRecords = PyFloat.val (2 / 3 * 100) := by
  refine ⟨by decide, by decide, by decide, ?_⟩
  show pyScale (seriesMean [0, 1, 1]) 100 = PyFloat.val (2 / 3 * 100)
  simp [seriesMean, pyScale]
  norm_num

/-- A filter selecting no team: its passing set over the scenario input is
empty, and the code then computes `avg_daily_score` and `pct_8k` as NaN
(mean of an empty series), rendered as-is rather than as a "no data"
signal. -/
theorem empty_filter_yields_nan :
    df_filt ⟨[], 1, 2⟩ demoRecords = [] ∧
    avg_daily_score (df_filt ⟨[], 1, 2⟩ demoRecords) = PyFloat.nan ∧
    pct_8k (df_filt ⟨[], 1, 2⟩ demoRecords) = PyFloat.nan := by
  refine ⟨by decide, by decide, by decide⟩

/-- A record is kept by the filter mask iff it is a row of the frame, its
team is among the selected teams, and its date lies in the inclusive
selected range. -/
theorem filter_membership : ∀ (f : FilterSpec) (rs : List StepRecord) (r : StepRecord),
    r ∈ df_filt f rs ↔
      r ∈ rs ∧ r.team ∈ f.teams ∧ f.start_date ≤ r.date ∧ r.date ≤ f.end_date := by
  intro f rs r
  simp [df_filt, recordPasses, List.mem_filter, and_assoc]

/-- The range of `calculate_score` is contained in `(-∞, 8000) ∪ [16000, 23000]`:
every output is at most 23000 and none lands in `[8000, 16000)`. -/
theorem score_range_gap : ∀ steps : Int,
    calculate_score steps ≤ 23000 ∧
    ¬ (8000 ≤ calculate_score steps ∧ calculate_score steps < 16000) ∧
    (calculate_score steps < 8000 ∨
      (16000 ≤ calculate_score steps ∧ calculate_score steps ≤ 23000)) := by
  intro steps
  simp only [calculate_score]
  split_ifs <;> omega

theorem pairwise_lex_orderedInsert :
    ∀ (l : List (String × Int)) (x : String × Int),
      l.Pairwise (fun a b => a.2 < b.2 ∨ (a.2 = b.2 ∧ strLt a.1 b.1 = true)) →
      (∀ y ∈ l, strLt x.1 y.1 = true) →
      (List.orderedInsert (fun a b : String × Int => a.2 ≤ b.2) x l).Pairwise
        (fun a b => a.2 < b.2 ∨ (a.2 = b.2 ∧ strLt a.1 b.1 = true)) := by
  intro l x hl hx
  induction l with
  | nil => simp
  | cons y ys ih =>
    rw [List.orderedInsert]
    rcases List.pairwise_cons.mp hl with ⟨hy, hys⟩
    by_cases hxy : x.2 ≤ y.2
    · rw [if_pos hxy]
      refine List.pairwise_cons.mpr ⟨?_, hl⟩
      intro z hz
      rcases List.mem_cons.mp hz with rfl | hz2
      · rcases lt_or_eq_of_le hxy with h | h
        · exact Or.inl h
        · exact Or.inr ⟨h, hx z (List.mem_cons_self z ys)⟩
      · have hyz : y.2 ≤ z.2 := by
          rcases hy z hz2 with h | ⟨h, _⟩
          · exact le_of_lt h
          · exact le_of_eq h
        rcases lt_or_eq_of_le (le_trans hxy hyz) with h | h
        · exact Or.inl h
        · exact Or.inr ⟨h, hx z (List.mem_cons_of_mem y hz2)⟩
    · rw [if_neg hxy]
      refine List.pairwise_cons.mpr ⟨?_, ?_⟩
      · intro z hz
        rcases (List.mem_orderedInsert _).mp hz with rfl | hz2
        · exact Or.inl (not_le.mp hxy)
        · exact hy z hz2
      · exact ih hys (fun z hz => hx z (List.mem_cons_of_mem y hz))

theorem pairwise_lex_insertionSort :
    ∀ l : List (String × Int),
      l.Pairwise (fun a b => strLt a.1 b.1 = true) →
      (List.insertionSort (fun a b : String × Int => a.2 ≤ b.2) l).Pairwise
        (fun a b => a.2 < b.2 ∨ (a.2 = b.2 ∧ strLt a.1 b.1 = true)) := by
  intro l hl
  induction l with
  | nil => simp
  | cons x xs ih =>
    rw [List.insertionSort]
    rcases List.pairwise_cons.mp hl with ⟨hx, hxs⟩
    refine pairwise_lex_orderedInsert _ x (ih hxs) ?_
    intro y hy
    exact hx y ((List.mem_insertionSort _).mp hy)

theorem team_keys_pairwise_lt (rs : List StepRecord) :
    (team_keys rs).Pairwise (fun a b : String => strLt a b = true) := by
  haveI hT : IsTotal String (fun a b => strLe a b = true) := ⟨strLe_total⟩
  haveI hR : IsTrans String (fun a b => strLe a b = true) := ⟨strLe_trans⟩
  unfold team_keys
  have hsorted : (List.insertionSort (fun a b : String => strLe a b = true)
      (rs.map (fun r => r.team)).dedup).Pairwise (fun a b => strLe a b = true) :=
    List.sorted_insertionSort _ _
  have hnodup : (List.insertionSort (fun a b : String => strLe a b = true)
      (rs.map (fun r => r.team)).dedup).Pairwise (fun a b : String => a ≠ b) :=
    ((List.perm_insertionSort _ _).nodup_iff).mpr (List.nodup_dedup _)
  exact (hsorted.and hnodup).imp
    (fun hpair => strLt_of_strLe_of_ne _ _ hpair.1 hpair.2)

/-- Two teams tied at total 100: the code emits them in descending team
order `[B, A]`, so the rows are NOT pairwise ordered by descending total
with ties broken by team ascending. -/
theorem team_totals_tie_not_ascending :
    team_totals tieRecords = [("B", 100), ("A", 100)] ∧
    ¬ (team_totals tieRecords).Pairwise
        (fun a b : String × Int => b.2 < a.2 ∨ (a.2 = b.2 ∧ strLt a.1 b.1 = true)) := by
  constructor
  · decide
  · intro h
    rw [show team_totals tieRecords = [("B", 100), ("A", 100)] from by decide] at h
    rcases List.pairwise_cons.mp h with ⟨hrel, _⟩
    rcases hrel ("A", 100) (List.mem_cons_self _ _) with h1 | ⟨_, h2⟩
    · exact absurd h1 (by decide)
    · exact absurd h2 (by decide)

/-- `team_totals` groups by team (one row per distinct passing team), sums
score per team, and orders rows by descending total with ties broken by
team identifier DESCENDING (the reverse of the ascending group order). -/
theorem team_totals_ordering : ∀ rs : List StepRecord,
    ((team_totals rs).map Prod.fst).Perm ((rs.map (fun r => r.team)).dedup) ∧
    (∀ p ∈ team_totals rs, p.2 = teamScoreSum rs p.1) ∧
    (team_totals rs).Pairwise
      (fun a b : String × Int => b.2 < a.2 ∨ (a.2 = b.2 ∧ strLt b.1 a.1 = true)) := by
  intro rs
  refine ⟨?_, ?_, ?_⟩
  · refine (map_fst_team_totals rs).trans ?_
    unfold team_keys
    exact List.perm_insertionSort _ _
  · intro p hp
    have hp2 : p ∈ (team_keys rs).map (fun t => (t, teamScoreSum rs t)) := by
      unfold team_totals at hp
      rw [List.mem_reverse] at hp
      exact (List.mem_insertionSort _).mp hp
    rcases List.mem_map.mp hp2 with ⟨t, _, rfl⟩
    rfl
  · unfold team_totals
    rw [List.pairwise_reverse]
    have hgrouped : ((team_keys rs).map (fun t => (t, teamScoreSum rs t))).Pairwise
        (fun a b : String × Int => strLt a.1 b.1 = true) := by
      rw [List.pairwise_map]
      exact team_keys_pairwise_lt rs
    refine (pairwise_lex_insertionSort _ hgrouped).imp ?_
    intro a b h
    rcases h with h | ⟨h1, h2⟩
    · exact Or.inl h
    · exact Or.inr ⟨h1.symm, h2⟩

/-- Instantiation of `team_totals_ordering`: the "T1" row of the scenario
data carries the group's score sum. -/
theorem team_totals_ordering_witness :
    (("T1", (46999 : Int)) : String × Int).2 =
      teamScoreSum demoRecords ("T1", (46999 : Int)).1 := by
  have hp : (("T1", (46999 : Int)) : String × Int) ∈ team_totals demoRecords := by
    decide
  exact (team_totals_ordering demoRecords).2.1 ("T1", 46999) hp

theorem sum_map_add_int {β : Type} (l : List β) (f g : β → Int) :
    (l.map (fun b => f b + g b)).sum = (l.map f).sum + (l.map g).sum := by
  induction l with
  | nil => simp
  | cons b bs ih =>
    simp [ih]
    ring

theorem sum_map_zero_int {β : Type} (l : List β) :
    (l.map (fun _ => (0 : Int))).sum = 0 := by
  induction l with
  | nil => simp
  | cons b bs ih => simp [ih]

theorem sum_if_mem_nodup :
    ∀ (ks : List Nat) (a : Nat) (c : Int), ks.Nodup → a ∈ ks →
      (ks.map (fun k => if a = k then c else 0)).sum = c := by
  intro ks
  induction ks with
  | nil =>
    intro a c _ h
    exact absurd h (List.not_mem_nil a)
  | cons k ks ih =>
    intro a c hnd hmem
    rw [List.map_cons, List.sum_cons]
    by_cases hak : a = k
    · rw [if_pos hak]
      have hnotin : a ∉ ks := by
        rw [hak]
        exact (List.nodup_cons.mp hnd).1
      have hz : (ks.map (fun k2 => if a = k2 then c else 0)).sum = 0 := by
        have hzz : ∀ k2 ∈ ks, (if a = k2 then c else 0) = (fun _ : Nat => (0 : Int)) k2 := by
          intro k2 hk2
          rw [if_neg]
          intro heq
          exact hnotin (by rw [heq]; exact hk2)
        rw [List.map_congr_left hzz]
        exact sum_map_zero_int ks
      rw [hz, add_zero]
    · rw [if_neg hak, zero_add]
      rcases List.mem_cons.mp hmem with heq | hmem2
      · exact absurd heq hak
      · exact ih a c (List.nodup_cons.mp hnd).2 hmem2

/-- Partitioning a record list by its (distinct) date keys preserves sums. -/
theorem sum_groups_eq_sum :
    ∀ (l : List StepRecord) (ks : List Nat) (f : StepRecord → Int),
      ks.Nodup → (∀ r ∈ l, r.date ∈ ks) →
      (ks.map (fun k => ((l.filter (fun r => r.date = k)).map f).sum)).sum =
        (l.map f).sum := by
  intro l
  induction l with
  | nil =>
    intro ks f _ _
    simp only [List.filter_nil, List.map_nil, List.sum_nil]
    exact sum_map_zero_int ks
  | cons r l ih =>
    intro ks f hnd hmem
    have hstep : ∀ k ∈ ks, (((r :: l).filter (fun r2 => r2.date = k)).map f).sum =
        (fun k2 => (if r.date = k2 then f r else 0) +
          ((l.filter (fun r2 => r2.date = k2)).map f).sum) k := by
      intro k _
      by_cases hk : r.date = k <;> simp [List.filter_cons, hk]
    rw [List.map_congr_left hstep, sum_map_add_int]
    rw [ih ks f hnd (fun r2 h2 => hmem r2 (List.mem_cons_of_mem r h2))]
    rw [sum_if_mem_nodup ks r.date (f r) hnd (hmem r (List.mem_cons_self r l))]
    simp

theorem le_foldr_max : ∀ (l : List Nat) (a : Nat), a ∈ l → a ≤ l.foldr max 0 := by
  intro l
  induction l with
  | nil =>
    intro a h
    exact absurd h (List.not_mem_nil a)
  | cons b l ih =>
    intro a h
    rcases List.mem_cons.mp h with rfl | h2
    · exact le_max_left a (l.foldr max 0)
    · exact le_trans (ih a h2) (le_max_right b (l.foldr max 0))

theorem nodup_dates_of (rs : List StepRecord) : (dates_of rs).Nodup := by
  unfold dates_of sorted_unique
  exact ((List.perm_insertionSort (· ≤ ·) (rs.map (fun r => r.date)).dedup).nodup_iff).mpr
    (List.nodup_dedup _)

theorem dates_filter_le_last (rs : List StepRecord) :
    (dates_of rs).filter (fun d2 => d2 ≤ last_date rs) = dates_of rs := by
  rw [List.filter_eq_self]
  intro d hd
  have hd2 : d ∈ rs.map (fun r => r.date) := by
    unfold dates_of sorted_unique at hd
    exact List.mem_dedup.mp ((List.mem_insertionSort _).mp hd)
  simpa [last_date] using le_foldr_max (rs.map (fun r => r.date)) d hd2

theorem filter_date_team_comm (rs : List StepRecord) (t : String) (d : Nat) :
    rs.filter (fun r => r.date = d ∧ r.team = t) =
      (rs.filter (fun r => r.team = t)).filter (fun r => r.date = d) := by
  rw [List.filter_filter]
  apply List.filter_congr
  intro r _
  by_cases h1 : r.date = d <;> by_cases h2 : r.team = t <;> simp [h1, h2]

/-- The cumulative pivot value of a team at the last date equals that
team's `team_totals` value: the cumulative sum over all (zero-filled)
daily cells recovers the group total, and the pair (team, value) is a row
of `team_totals`. -/
theorem cumulative_last_eq_team_total : ∀ (rs : List StepRecord) (t : String),
    rs ≠ [] → (∃ r ∈ rs, r.team = t) →
    cum_at rs (last_date rs) t = teamScoreSum rs t ∧
    (t, cum_at rs (last_date rs) t) ∈ team_totals rs := by
  intro rs t _ hex
  have hval : cum_at rs (last_date rs) t = teamScoreSum rs t := by
    unfold cum_at
    rw [dates_filter_le_last]
    have hstep : ∀ d ∈ dates_of rs, daily_team_score rs d t =
        (fun d2 => (((rs.filter (fun r => r.team = t)).filter
          (fun r => r.date = d2)).map scoreOf).sum) d := by
      intro d _
      unfold daily_team_score
      rw [filter_date_team_comm]
    rw [List.map_congr_left hstep]
    exact sum_groups_eq_sum (rs.filter (fun r => r.team = t)) (dates_of rs) scoreOf
      (nodup_dates_of rs)
      (fun r2 h2 => by
        unfold dates_of sorted_unique
        rw [List.mem_insertionSort, List.mem_dedup]
        exact List.mem_map.mpr ⟨r2, List.mem_of_mem_filter h2, rfl⟩)
  refine ⟨hval, ?_⟩
  rw [hval]
  obtain ⟨r, hr, hrt⟩ := hex
  have htk : t ∈ team_keys rs := (mem_team_keys rs t).mpr ⟨r, hr, hrt⟩
  unfold team_totals
  rw [List.mem_reverse, List.mem_insertionSort]
  exact List.mem_map.mpr ⟨t, htk, rfl⟩

/-- Instantiation of `cumulative_last_eq_team_total` on the scenario data. -/
theorem cumulative_last_eq_team_total_witness :
    cum_at demoRecords (last_date demoRecords) "T1" = teamScoreSum demoRecords "T1" ∧
    ("T1", cum_at demoRecords (last_date demoRecords) "T1") ∈ team_totals demoRecords := by
  have h1 : demoRecords ≠ [] := by decide
  have h2 : ∃ r ∈ demoRecords, r.team = "T1" :=
    ⟨⟨1, "A", "T1", 7999⟩, by decide, rfl⟩
  exact cumulative_last_eq_team_total demoRecords "T1" h1 h2
